import Mathlib

/-!
Verification of the xcel-myenergy-usage-scraper download scripts.

This file gives a shallow embedding, in Lean, of the pure data-processing
core of the five Python download scripts:

* the network-capture slot logic of the Playwright request observers
  (functions named on_request in xcel_download_elec_daily.py,
  xcel_download_bill_history.py and xcel_download_gas_monthly.py, together
  with the slot resets and the fallback in the gas script's main),
* the URL query rewriting helper swap_usage_type (built on Python's
  urllib.parse functions parse_qs, urlencode, urlparse, urlunparse),
* the JSON-to-CSV normalizers json_to_csv, bill_json_to_csv and
  intervals_to_csv, and the helpers parse_money and
  parse_interval_datetime.

Modelling conventions:

* Python numeric values (floats in the JSON payloads) are modelled as
  exact rationals; Python round(x, n) is modelled as round-half-to-even
  at n decimal digits on the rational value.
* JSON null is modelled as Option.none; a JSON field that may be absent
  is modelled as an Option (or as a list defaulting to [] where the code
  uses dict.get(key, [])).
* Strings are Lean strings; the percent decoder of urllib works on bytes,
  so the URL model is stated for strings whose characters have code
  points below 256 (one character per byte); hypotheses record this.
* Writing a CSV file is modelled by explicit state passing: a normalizer
  takes the previous content of the output file (an Option) and returns
  the row count together with the new content.
-/

/-! ## Capture slots (SessionBridge request observers)

Each script holds a one-element mutable slot, initialised empty, and a
Playwright request callback that fills the slot with the first observed
URL satisfying the script's predicate.  The gas-monthly script resets the
slot before each of two UI interactions and finally prefers the URL from
the second interaction, falling back to the first (main, Step 5/Step 6).
-/

/-- Substring test on strings, modelling the Python expression
pattern in url. -/
def containsSub (pat s : String) : Bool :=
  (List.range (s.data.length + 1)).any fun i => pat.data.isPrefixOf (s.data.drop i)

/-- Match predicate of on_request in xcel_download_elec_daily.py:
the URL must contain both the ajax path fragment and the DAILY time
period parameter. -/
def dailyAjaxMatch (url : String) : Bool :=
  containsSub "usage-history-ajax/format/json" url && containsSub "timePeriod=DAILY" url

/-- Match predicate of on_request in xcel_download_gas_monthly.py. -/
def gasAjaxMatch (url : String) : Bool :=
  containsSub "usage-history-ajax/format/json" url

/-- Match predicate of on_request in xcel_download_bill_history.py. -/
def billAjaxMatch (url : String) : Bool :=
  containsSub "bill-presentment-account-summary-ajax" url

/-- One observer invocation: the slot is filled when the URL matches and
the slot is still empty, otherwise kept (the body of on_request). -/
def captureStep (pred : String → Bool) (slot : Option String) (url : String) :
    Option String :=
  if pred url && slot.isNone then some url else slot

/-- Processing a whole sequence of observed request URLs, in observation
order, starting from a given slot state. -/
def runCapture (pred : String → Bool) (slot : Option String) (evs : List String) :
    Option String :=
  evs.foldl (captureStep pred) slot

/-- The URL retained by xcel_download_gas_monthly.py main across its two
interaction phases: the slot is reset before Step 5 (meter selection,
events evs1) and reset again before Step 6 (MONTHLY switch, events
evs2); the final choice is the Step 6 capture, falling back to the
Step 5 capture (ajax_url = captured or ajax_url_from_meter). -/
def gasMonthlyRetained (evs1 evs2 : List String) : Option String :=
  (runCapture gasAjaxMatch none evs2).or (runCapture gasAjaxMatch none evs1)

theorem runCapture_some (pred : String → Bool) (x : String) (evs : List String) :
    runCapture pred (some x) evs = some x := by
  induction evs with
  | nil => rfl
  | cons e evs ih =>
      simpa [runCapture, captureStep] using ih

theorem runCapture_eq_find (pred : String → Bool) (evs : List String) :
    runCapture pred none evs = evs.find? pred := by
  induction evs with
  | nil => rfl
  | cons e evs ih =>
      by_cases h : pred e
      · have hs := runCapture_some pred e evs
        simp only [runCapture] at hs
        simp [runCapture, List.find?, captureStep, h, hs]
      · simpa [runCapture, List.find?, captureStep, h] using ih

theorem find?_eq_head_filter (pred : String → Bool) (l : List String) :
    l.find? pred = (l.filter pred).head? := by
  induction l with
  | nil => rfl
  | cons e l ih =>
      by_cases h : pred e
      · simp [List.find?, List.filter, h]
      · simp only [List.find?, List.filter, h]
        exact ih

/-! ## URL query rewriting (swap_usage_type)

swap_usage_type in xcel_download_elec_daily.py / xcel_download_gas_monthly.py
(and xcel_download_elec_monthly.py) is

  parsed = urlparse(url)
  params = parse_qs(parsed.query, keep_blank_values=True)
  params["usageType"] = [usage_type]
  return urlunparse(parsed._replace(query=urlencode(params, doseq=True)))

The model below follows CPython's urllib.parse: parse_qsl splits the
query on the ampersand, splits each non-empty field at its first equals
sign (keeping blank values), and percent-plus-decodes names and values;
parse_qs groups the pairs into a dict keyed by name in first-occurrence
order; urlencode(..., doseq=True) re-encodes every name and value with
quote_plus and joins with ampersands.  The percent decoder is modelled
bytewise (one character per code point below 256). -/

/-- The value of a hex digit (both cases accepted, as in urllib's
_hextobyte table), by code point: 0-9, A-F, a-f. -/
def hexVal? (c : Char) : Option ℕ :=
  if 48 ≤ c.toNat ∧ c.toNat ≤ 57 then some (c.toNat - 48)
  else if 65 ≤ c.toNat ∧ c.toNat ≤ 70 then some (c.toNat - 65 + 10)
  else if 97 ≤ c.toNat ∧ c.toNat ≤ 102 then some (c.toNat - 97 + 10)
  else none

def hexDigitChar (n : ℕ) : Char :=
  if n < 10 then Char.ofNat ('0'.toNat + n) else Char.ofNat ('A'.toNat + n - 10)

/-- The two uppercase hex digits of a byte, as written by urllib's quote. -/
def toHexPair (n : ℕ) : List Char :=
  [hexDigitChar (n / 16 % 16), hexDigitChar (n % 16)]

/-- Characters never quoted by urllib (ALWAYS_SAFE: ASCII letters, digits,
underscore, dot, hyphen, tilde); urlencode passes safe as the empty
string, so nothing else is exempt. -/
def isUrlSafe (c : Char) : Bool :=
  c.isAlpha || c.isDigit || c = '_' || c = '.' || c = '-' || c = '~'

/-- quote_plus on one character: safe characters kept, space becomes a
plus, anything else percent-encoded. -/
def quotePlusChar (c : Char) : List Char :=
  if isUrlSafe c then [c]
  else if c = ' ' then ['+']
  else '%' :: toHexPair c.toNat

def quotePlusList (l : List Char) : List Char :=
  l.flatMap quotePlusChar

/-- urllib.parse.quote_plus with safe set empty. -/
def quotePlus (s : String) : String :=
  ⟨quotePlusList s.data⟩

/-- urllib's percent decoder (unquote): a percent sign followed by two
hex digits becomes the corresponding byte; an invalid sequence keeps the
percent sign literally and decoding continues. -/
def percentDecode : List Char → List Char
  | [] => []
  | '%' :: h1 :: h2 :: rest =>
      match hexVal? h1, hexVal? h2 with
      | some a, some b => Char.ofNat (16 * a + b) :: percentDecode rest
      | _, _ => '%' :: percentDecode (h1 :: h2 :: rest)
  | c :: rest => c :: percentDecode rest

/-- The plus-to-space substitution performed by unquote_plus before
percent decoding. -/
def plusToSpace (c : Char) : Char :=
  if c = '+' then ' ' else c

/-- unquote_plus on a character list: pluses become spaces first, then
percent sequences are decoded (the order used by urllib, so an encoded
plus survives as a plus). -/
def unquotePlusList (l : List Char) : List Char :=
  percentDecode (l.map plusToSpace)

def unquotePlus (s : String) : String :=
  ⟨unquotePlusList s.data⟩

/-- str.split(sep) for a one-character separator: splitting on every
occurrence, keeping empty pieces (the list of pieces is never empty). -/
def splitOnCharList (sep : Char) : List Char → List (List Char)
  | [] => [[]]
  | c :: rest =>
      match splitOnCharList sep rest with
      | [] => if c = sep then [[], []] else [[c]]
      | g :: gs => if c = sep then [] :: g :: gs else (c :: g) :: gs

/-- str.split(sep, 1): the piece before the first occurrence of the
separator and the remainder, if the separator occurs at all. -/
def splitFirst (sep : Char) : List Char → Option (List Char × List Char)
  | [] => none
  | c :: rest =>
      if c = sep then some ([], rest)
      else
        match splitFirst sep rest with
        | none => none
        | some (a, b) => some (c :: a, b)

/-- urllib.parse.parse_qsl with keep_blank_values=True: ordered decoded
name/value pairs; empty fields are skipped, a field without an equals
sign yields a blank value. -/
def parseQsl (qs : String) : List (String × String) :=
  (splitOnCharList '&' qs.data).filterMap fun seg =>
    if seg.isEmpty then none
    else
      match splitFirst '=' seg with
      | some (n, v) => some (⟨unquotePlusList n⟩, ⟨unquotePlusList v⟩)
      | none => some (⟨unquotePlusList seg⟩, "")

/-- Appending one decoded pair to the grouped dict: the value joins an
existing entry for the same name, otherwise a new entry is added at the
end (Python dict insertion order). -/
def insertPair (d : List (String × List String)) (k v : String) :
    List (String × List String) :=
  match d with
  | [] => [(k, [v])]
  | (k1, vs) :: rest =>
      if k1 = k then (k1, vs ++ [v]) :: rest else (k1, vs) :: insertPair rest k v

/-- urllib.parse.parse_qs with keep_blank_values=True: the grouped dict,
keyed by decoded name in first-occurrence order. -/
def parseQs (qs : String) : List (String × List String) :=
  (parseQsl qs).foldl (fun d kv => insertPair d kv.1 kv.2) []

/-- The dict assignment params[name] = [value]: replaces the value list
of an existing entry in place, or appends a new entry. -/
def setParam (d : List (String × List String)) (k v : String) :
    List (String × List String) :=
  if d.any fun kv => kv.1 = k then
    d.map fun kv => if kv.1 = k then (kv.1, [v]) else kv
  else d ++ [(k, [v])]

/-- One name=value field of the encoded query. -/
def encodePair (k v : String) : List Char :=
  quotePlusList k.data ++ '=' :: quotePlusList v.data

/-- urllib.parse.urlencode(d, doseq=True): each value of each entry
becomes a quoted name=value field, joined with ampersands. -/
def urlencodeDoseq (d : List (String × List String)) : String :=
  ⟨List.intercalate ['&'] (d.flatMap fun kv => kv.2.map fun v => encodePair kv.1 v)⟩

/-- The query-string transformation performed by swap_usage_type. -/
def swapQuery (q t : String) : String :=
  urlencodeDoseq (setParam (parseQs q) "usageType" t)

/-- The six components produced by urlparse; urlunparse reassembles them
unchanged. -/
structure UrlParts where
  scheme : String
  netloc : String
  path : String
  pathParams : String
  query : String
  fragment : String
deriving DecidableEq, Repr

/-- swap_usage_type over the parsed URL: only the query component is
rebuilt, every other component is passed through by _replace. -/
def swap_usage_type (u : UrlParts) (t : String) : UrlParts :=
  { u with query := swapQuery u.query t }

/-! ## Rounding and numeric model

Python round(x, n) rounds half to even; values are modelled as exact
rationals, so the model rounds the exact decimal. -/

/-- Round half to even to the nearest integer. -/
def roundHalfEven (q : ℚ) : ℤ :=
  let f := ⌊q⌋
  if q - f < 1/2 then f
  else if (1 : ℚ)/2 < q - f then f + 1
  else if 2 ∣ f then f else f + 1

/-- Python round(q, n) on the rational model. -/
def pyRound (n : ℕ) (q : ℚ) : ℚ :=
  (roundHalfEven (q * 10 ^ n) : ℚ) / 10 ^ n

/-- Python truthiness of a possibly-null number: None and 0.0 are falsy. -/
def pyTruthy (x : Option ℚ) : Bool :=
  decide (x.getD 0 ≠ 0)

/-! ## Series-shape payloads and json_to_csv -/

/-- One element of series_data: a named series with one value per
category index; null values are none. -/
structure SeriesEntry where
  name : String
  data : List (Option ℚ)
deriving DecidableEq, Repr

/-- The chart JSON consumed by json_to_csv; a missing key is modelled by
the empty list, the default of dict.get. -/
structure ChartData where
  column_fulldates : List String
  series_data : List SeriesEntry
deriving DecidableEq, Repr

/-- d.split(" ")[0]: the part of a category label before its first
space. -/
def dateBeforeSpace (d : String) : String :=
  ⟨(splitOnCharList ' ' d.data).headD []⟩

/-- dates = [d.split(" ")[0] for d in data.get("column_fulldates", [])]. -/
def chartDates (data : ChartData) : List String :=
  data.column_fulldates.map dateBeforeSpace

/-- vals at category index i: each series contributes its value at i, or
0.0 when the series array is shorter than the category list. -/
def chartVals (series : List SeriesEntry) (i : ℕ) : List (Option ℚ) :=
  series.map fun s => s.data.getD i (some 0)

/-- One CSV data row written by json_to_csv: the date cell, the raw
per-series cells (null written as an empty cell), and the Total cell. -/
structure ChartRow where
  date : String
  vals : List (Option ℚ)
  total : ℚ
deriving DecidableEq, Repr

/-- The row for category index i: total = round(sum(v or 0.0 for v in
vals), 3). -/
def chartRowAt (series : List SeriesEntry) (i : ℕ) (date : String) : ChartRow :=
  { date := date
    vals := chartVals series i
    total := pyRound 3 (((chartVals series i).map fun v => v.getD 0).sum) }

/-- The full data-row list of json_to_csv (one row per category, none
dropped). -/
def chartRows (data : ChartData) : List ChartRow :=
  (chartDates data).enum.map fun p => chartRowAt data.series_data p.1 p.2

/-- The written CSV: header row plus data rows. -/
structure ChartCsv where
  header : List String
  rows : List ChartRow
deriving DecidableEq, Repr

/-- json_to_csv: returns the row count and the resulting state of the
output file.  When the date list or the series list is empty it returns
0 before opening the file, so the previous content survives; otherwise
the file is opened with mode w and rewritten entirely. -/
def json_to_csv (data : ChartData) (prev : Option ChartCsv) : ℕ × Option ChartCsv :=
  if (chartDates data).isEmpty || data.series_data.isEmpty then (0, prev)
  else
    ((chartDates data).length,
      some ⟨"Date" :: (data.series_data.map fun s => s.name) ++ ["Total"],
            chartRows data⟩)

/-! ## Calendar dates (datetime.strptime / strftime as used here) -/

def isLeapYear (y : ℕ) : Bool :=
  y % 4 == 0 && (y % 100 != 0 || y % 400 == 0)

def daysInMonth (y m : ℕ) : ℕ :=
  if m = 2 then (if isLeapYear y then 29 else 28)
  else if m = 4 ∨ m = 6 ∨ m = 9 ∨ m = 11 then 30
  else 31

/-- The numeric value of a non-empty all-digit field. -/
def digitsVal? (l : List Char) : Option ℕ :=
  if !l.isEmpty && l.all (fun c => c.isDigit) then
    some (l.foldl (fun a c => 10 * a + (c.toNat - '0'.toNat)) 0)
  else none

/-- A one- or two-digit field between 1 and maxV, as matched by the
strptime patterns for %m, %d and %I. -/
def parseOneTwo (maxV : ℕ) (l : List Char) : Option ℕ :=
  if l.length = 1 ∨ l.length = 2 then
    (digitsVal? l).bind fun v => if 1 ≤ v ∧ v ≤ maxV then some v else none
  else none

/-- Pattern %M: one or two digits, 0 to 59. -/
def parseMinute (l : List Char) : Option ℕ :=
  if l.length = 1 ∨ l.length = 2 then
    (digitsVal? l).bind fun v => if v ≤ 59 then some v else none
  else none

/-- Pattern %Y: exactly four digits; datetime then requires year at least 1. -/
def parseYear4 (l : List Char) : Option ℕ :=
  if l.length = 4 then (digitsVal? l).bind fun v => if 1 ≤ v then some v else none
  else none

/-- strptime(s, "%m/%d/%Y") followed by the datetime constructor's
calendar validation. -/
def parseDateMDYChars (l : List Char) : Option (ℕ × ℕ × ℕ) :=
  match splitOnCharList '/' l with
  | [mf, df, yf] =>
      match parseOneTwo 12 mf, parseOneTwo 31 df, parseYear4 yf with
      | some m, some d, some y =>
          if d ≤ daysInMonth y m then some (y, m, d) else none
      | _, _, _ => none
  | _ => none

def parseDateMDY (s : String) : Option (ℕ × ℕ × ℕ) :=
  parseDateMDYChars s.data

/-- A number zero-padded to a fixed width, as the strftime directives
%Y, %m, %d, %H and %M print it. -/
def padNum (w : ℕ) (n : ℕ) : String :=
  ⟨List.replicate (w - (toString n).length) '0'⟩ ++ toString n

/-- strftime("%Y-%m-%d"). -/
def formatYMD (y m d : ℕ) : String :=
  padNum 4 y ++ "-" ++ padNum 2 m ++ "-" ++ padNum 2 d

/-- The per-category date conversion of bill_json_to_csv:
MM/DD/YYYY rewritten as YYYY-MM-DD, the raw label on parse failure. -/
def billDate (raw : String) : String :=
  match parseDateMDY raw with
  | some (y, m, d) => formatYMD y m d
  | none => raw

/-! ## Bill-history payloads and bill_json_to_csv -/

/-- The cost_barchart object of the bill JSON. -/
structure BillChart where
  categories : List String
  series_data : List SeriesEntry
deriving DecidableEq, Repr

/-- The whole bill JSON; a missing cost_barchart defaults to an empty
object (dict.get(key, {})). -/
structure BillData where
  cost_barchart : Option BillChart
deriving DecidableEq, Repr

def billChartOf (data : BillData) : BillChart :=
  data.cost_barchart.getD ⟨[], []⟩

/-- The dict comprehension by_name = {s["name"]: s["data"] for s in
series}: on duplicate names the last occurrence wins. -/
def lastDataFor (series : List SeriesEntry) (n : String) : Option (List (Option ℚ)) :=
  (series.reverse.find? fun s => s.name == n).map fun s => s.data

/-- elec_vals = by_name.get("Electric Charges", [0.0] * len(cats)). -/
def elecVals (chart : BillChart) : List (Option ℚ) :=
  (lastDataFor chart.series_data "Electric Charges").getD
    (List.replicate chart.categories.length (some 0))

/-- gas_vals = by_name.get("Gas Charges", [0.0] * len(cats)). -/
def gasVals (chart : BillChart) : List (Option ℚ) :=
  (lastDataFor chart.series_data "Gas Charges").getD
    (List.replicate chart.categories.length (some 0))

/-- One CSV row written by bill_json_to_csv: [date, elec or 0.0,
gas or 0.0, total]. -/
structure BillRow where
  date : String
  elec : ℚ
  gas : ℚ
  total : ℚ
deriving DecidableEq, Repr

/-- The retention test of bill_json_to_csv at category index i: the row
is written only when elec or gas is truthy, where elec and gas are the
series values at i (0.0 past the end of a list). -/
def billKeep (chart : BillChart) (i : ℕ) : Bool :=
  pyTruthy ((elecVals chart).getD i (some 0))
    || pyTruthy ((gasVals chart).getD i (some 0))

/-- The row written for category index i: [date, elec or 0.0,
gas or 0.0, round((elec or 0) + (gas or 0), 2)]. -/
def billRowAt (chart : BillChart) (i : ℕ) (raw : String) : BillRow :=
  { date := billDate raw
    elec := ((elecVals chart).getD i (some 0)).getD 0
    gas := ((gasVals chart).getD i (some 0)).getD 0
    total := pyRound 2 (((elecVals chart).getD i (some 0)).getD 0
      + ((gasVals chart).getD i (some 0)).getD 0) }

/-- The data rows of bill_json_to_csv: one candidate row per category
index, kept only when the retention test passes. -/
def billRows (chart : BillChart) : List BillRow :=
  chart.categories.enum.filterMap fun p =>
    if billKeep chart p.1 then some (billRowAt chart p.1 p.2) else none

/-- The CSV written by bill_json_to_csv. -/
structure BillCsv where
  header : List String
  rows : List BillRow
deriving DecidableEq, Repr

/-- bill_json_to_csv: 0 and an untouched file when categories or series
are empty, otherwise the file is rewritten and the count of kept rows
returned. -/
def bill_json_to_csv (data : BillData) (prev : Option BillCsv) : ℕ × Option BillCsv :=
  let chart := billChartOf data
  if chart.categories.isEmpty || chart.series_data.isEmpty then (0, prev)
  else
    ((billRows chart).length,
      some ⟨["Date", "Electric Charges", "Gas Charges", "Total"], billRows chart⟩)

/-! ## Interval-shape payloads and intervals_to_csv -/

/-- strptime(ts, "%m/%d/%Y %I:%M %p").strftime("%Y-%m-%d %H:%M") with
fallback to the raw string (parse_interval_datetime).  Runs of spaces
separate the three fields (strptime matches whitespace as a run); AM/PM
is case-insensitive. -/
def parse_interval_datetime (ts : String) : String :=
  match (splitOnCharList ' ' ts.data).filter (fun l => !l.isEmpty) with
  | [df, tf, pf] =>
      match parseDateMDYChars df, splitFirst ':' tf,
            (pf.map Char.toUpper : List Char) with
      | some (y, m, d), some (hf, mf), ['A', 'M'] =>
          match parseOneTwo 12 hf, parseMinute mf with
          | some h, some mi =>
              formatYMD y m d ++ " " ++ padNum 2 (if h = 12 then 0 else h)
                ++ ":" ++ padNum 2 mi
          | _, _ => ts
      | some (y, m, d), some (hf, mf), ['P', 'M'] =>
          match parseOneTwo 12 hf, parseMinute mf with
          | some h, some mi =>
              formatYMD y m d ++ " " ++ padNum 2 (if h = 12 then 12 else h + 12)
                ++ ":" ++ padNum 2 mi
          | _, _ => ts
      | _, _, _ => ts
  | _ => ts

/-- One element of the odr-ajax intervals list; absent or null fields
are none (dict.get). -/
structure IntervalItem where
  last_request_timestamp : Option String
  last_request_unix_timestamp : Option Int
  odr_amt : Option ℚ
  rate_level : Option String
deriving DecidableEq, Repr

/-- One CSV row of intervals_to_csv. -/
structure OdrRow where
  dateTime : String
  kWh : ℚ
  rate_level : String
  unix_ms : Int
deriving DecidableEq, Repr

/-- The guard of intervals_to_csv: the timestamp string must be truthy
(present and non-empty) and the epoch and amount present (is not None). -/
def wellFormedInterval (iv : IntervalItem) : Bool :=
  !(iv.last_request_timestamp.getD "").isEmpty
    && iv.last_request_unix_timestamp.isSome && iv.odr_amt.isSome

/-- The row built from a kept interval: unix_ms = int(unix_s) * 1000. -/
def mkOdrRow (iv : IntervalItem) : OdrRow :=
  { dateTime := parse_interval_datetime (iv.last_request_timestamp.getD "")
    kWh := iv.odr_amt.getD 0
    rate_level := iv.rate_level.getD ""
    unix_ms := iv.last_request_unix_timestamp.getD 0 * 1000 }

/-- The sort key comparison rows.sort(key=lambda r: r["unix_ms"]). -/
def odrLe (a b : OdrRow) : Prop :=
  a.unix_ms ≤ b.unix_ms

instance : DecidableRel odrLe :=
  fun a b => inferInstanceAs (Decidable (a.unix_ms ≤ b.unix_ms))

/-- The row list of intervals_to_csv: keep the well-formed items in
order, then a stable ascending sort by unix_ms.  Python list.sort is a
stable ascending sort, and a stable sort's output is unique, so it is
modelled by insertion sort. -/
def odrRows (intervals : List IntervalItem) : List OdrRow :=
  List.insertionSort odrLe ((intervals.filter wellFormedInterval).map mkOdrRow)

/-- The CSV written by intervals_to_csv. -/
structure OdrCsv where
  header : List String
  rows : List OdrRow
deriving DecidableEq, Repr

/-- intervals_to_csv: the file is always rewritten (header even when no
row survives) and the kept-row count returned. -/
def intervals_to_csv (intervals : List IntervalItem) : ℕ × OdrCsv :=
  ((odrRows intervals).length,
    ⟨["DateTime", "kWh", "rate_level", "unix_ms"], odrRows intervals⟩)

/-! ## parse_money (xcel_download_bill_history.py) -/

/-- The character class kept by re.sub(r"[^0-9.\-]", "", s). -/
def keepMoneyChar (c : Char) : Bool :=
  ('0' ≤ c && c ≤ '9') || c = '.' || c = '-'

def stripMoney (s : String) : String :=
  ⟨s.data.filter keepMoneyChar⟩

/-- The numeric value of a digit run (empty allowed, for use around a
decimal point). -/
def digitsNat (l : List Char) : ℕ :=
  l.foldl (fun a c => 10 * a + (c.toNat - '0'.toNat)) 0

/-- Python float() on an unsigned literal over digits and dots: a digit
run, optionally split by one decimal point with at least one digit
somewhere. -/
def pyFloatUnsigned? (l : List Char) : Option ℚ :=
  match splitOnCharList '.' l with
  | [ip] => (digitsVal? ip).map fun n => (n : ℚ)
  | [ip, fp] =>
      if ip.all (fun c => c.isDigit) && fp.all (fun c => c.isDigit)
          && !(ip.isEmpty && fp.isEmpty) then
        some ((digitsNat ip : ℚ) + (digitsNat fp : ℚ) / 10 ^ fp.length)
      else none
  | _ => none

/-- Python float() restricted to the characters parse_money can feed it
(digits, dots, hyphens): an optional leading minus sign, then an
unsigned literal; none models the ValueError float() raises otherwise. -/
def pyFloatLit? (l : List Char) : Option ℚ :=
  match l with
  | '-' :: rest => (pyFloatUnsigned? rest).map Neg.neg
  | _ => pyFloatUnsigned? l

/-- parse_money: float(re.sub(r"[^0-9.\-]", "", str(s)) or "0");
none models a raised ValueError. -/
def parse_money (s : String) : Option ℚ :=
  let r := stripMoney s
  pyFloatLit? (if r.isEmpty then "0" else r).data

/-! ## Fetch classification (RequestReplay)

Each download step performs r = requests.get(url, ...), raises on
r.status_code != 200, then parses r.json(); an unparseable body raises
out of the json call.  The observable classification is a function of
the single response received for the URL; no retry exists in the code. -/

inductive FetchOutcome where
  | fetchError (status : ℕ)
  | decodeError
  | ok (payload : ChartData)
deriving DecidableEq, Repr

/-- The outcome of one fetch, from the response status and the parsed
body (none when the body does not parse as JSON). -/
def classify_fetch (status : ℕ) (body : Option ChartData) : FetchOutcome :=
  if status ≠ 200 then .fetchError status
  else
    match body with
    | none => .decodeError
    | some p => .ok p

/-! ## Claim C2: first-match capture -/

/-- C2: for every sequence of observed network events processed in order
by the request observer, a capture slot in first-match mode ends up
holding the earliest event of the sequence satisfying the capture
predicate, and once the slot is non-empty no later qualifying event
changes it. -/
theorem firstMatch_capture_retains_earliest (pred : String → Bool)
    (evs extra : List String) :
    runCapture pred none evs = (evs.filter pred).head?
      ∧ ((runCapture pred none evs).isSome = true →
          runCapture pred none (evs ++ extra) = runCapture pred none evs) := by
  constructor
  · rw [runCapture_eq_find, find?_eq_head_filter]
  · intro h
    obtain ⟨x, hx⟩ := Option.isSome_iff_exists.mp h
    unfold runCapture at hx ⊢
    rw [List.foldl_append, hx]
    exact runCapture_some pred x extra

/-- Witness for C2 at a concrete event sequence: the first qualifying
URL is kept and a later qualifying URL does not displace it. -/
theorem firstMatch_capture_retains_earliest_witness :
    runCapture dailyAjaxMatch none
        ["u/usage-history-ajax/format/json?timePeriod=DAILY&n=1",
         "u/usage-history-ajax/format/json?timePeriod=DAILY&n=2"]
      = some "u/usage-history-ajax/format/json?timePeriod=DAILY&n=1"
    ∧ runCapture dailyAjaxMatch none
        (["u/usage-history-ajax/format/json?timePeriod=DAILY&n=1",
          "u/usage-history-ajax/format/json?timePeriod=DAILY&n=2"] ++
         ["u/usage-history-ajax/format/json?timePeriod=DAILY&n=3"])
      = some "u/usage-history-ajax/format/json?timePeriod=DAILY&n=1" := by
  have h := firstMatch_capture_retains_earliest dailyAjaxMatch
    ["u/usage-history-ajax/format/json?timePeriod=DAILY&n=1",
     "u/usage-history-ajax/format/json?timePeriod=DAILY&n=2"]
    ["u/usage-history-ajax/format/json?timePeriod=DAILY&n=3"]
  have h1 : runCapture dailyAjaxMatch none
      ["u/usage-history-ajax/format/json?timePeriod=DAILY&n=1",
       "u/usage-history-ajax/format/json?timePeriod=DAILY&n=2"]
      = some "u/usage-history-ajax/format/json?timePeriod=DAILY&n=1" := by
    rw [h.1]; decide
  exact ⟨h1, by rw [h.2 (by rw [h1]; rfl)]; exact h1⟩

/-! ## Claim C1: two-phase capture with fallback (gas monthly) -/

/-- C1 counterexample: with two qualifying events observed after the
later phase's activation point (the Step 6 slot reset), the code retains
the first of them, not the latest qualifying one as the claim states. -/
theorem gas_supersede_latest_counterexample :
    gasMonthlyRetained []
        ["g/usage-history-ajax/format/json?n=1",
         "g/usage-history-ajax/format/json?n=2"]
      = some "g/usage-history-ajax/format/json?n=1"
    ∧ gasAjaxMatch "g/usage-history-ajax/format/json?n=2" = true
    ∧ ("g/usage-history-ajax/format/json?n=1" : String)
        ≠ "g/usage-history-ajax/format/json?n=2" := by
  refine ⟨by decide, by decide, by decide⟩

/-- C1 amended: across the two interaction phases of the gas-monthly
script, the retained event is the earliest (not latest) qualifying event
observed after the later phase's activation point when one exists, and
otherwise falls back to the earliest qualifying event of the earlier
phase. -/
theorem gas_supersede_earliest_with_fallback (evs1 evs2 : List String) :
    gasMonthlyRetained evs1 evs2 =
      ((evs2.filter gasAjaxMatch).head?).or ((evs1.filter gasAjaxMatch).head?) := by
  unfold gasMonthlyRetained
  rw [runCapture_eq_find, runCapture_eq_find, find?_eq_head_filter,
    find?_eq_head_filter]

/-! ## Shared list lemmas for the normalizers -/

theorem filterMap_if_eq_map_filter {α β : Type} (f : α → β) (q : α → Bool)
    (l : List α) :
    (l.filterMap fun a => if q a then some (f a) else none)
      = (l.filter q).map f := by
  induction l with
  | nil => rfl
  | cons a l ih =>
      by_cases h : q a <;> simp [List.filterMap_cons, List.filter_cons, h, ih]

theorem billRows_eq_map_filter (chart : BillChart) :
    billRows chart
      = ((chart.categories.enum.filter fun p => billKeep chart p.1).map
          fun p => billRowAt chart p.1 p.2) := by
  unfold billRows
  exact filterMap_if_eq_map_filter (fun p => billRowAt chart p.1 p.2)
    (fun p => billKeep chart p.1) chart.categories.enum

theorem length_filter_enumFrom_fst {α : Type} (q : ℕ → Bool) :
    ∀ (l : List α) (n : ℕ),
      ((List.enumFrom n l).filter fun p => q p.1).length
        = ((List.range' n l.length).filter q).length := by
  intro l
  induction l with
  | nil => intro n; rfl
  | cons a l ih =>
      intro n
      by_cases h : q n <;>
        simp [List.enumFrom, List.range'_succ, List.filter_cons, h, ih (n + 1)]

/-! ## Claim C10: frame effect of json_to_csv -/

/-- C10: when the category list or the series list is empty json_to_csv
returns 0 and the output file is neither created nor overwritten; for a
non-empty payload the file is overwritten (the result is present and
does not depend on the previous content) and the returned count equals
the number of categories. -/
theorem json_to_csv_frame (data : ChartData) (prev prev2 : Option ChartCsv) :
    (data.column_fulldates = [] ∨ data.series_data = [] →
      json_to_csv data prev = (0, prev))
    ∧ (data.column_fulldates ≠ [] → data.series_data ≠ [] →
        (json_to_csv data prev).1 = data.column_fulldates.length
        ∧ (json_to_csv data prev).2 = (json_to_csv data prev2).2
        ∧ ((json_to_csv data prev).2).isSome = true) := by
  unfold json_to_csv
  constructor
  · rintro (h | h) <;> simp [chartDates, h]
  · intro h1 h2
    simp [chartDates, h1, h2]

/-- Witness for C10: an empty payload leaves a pre-existing file intact
and returns 0; a two-category payload returns 2 and writes a file. -/
theorem json_to_csv_frame_witness :
    json_to_csv ⟨[], [⟨"A", [some 1]⟩]⟩ (some ⟨["old"], []⟩)
        = (0, some ⟨["old"], []⟩)
    ∧ (json_to_csv ⟨["d1 x", "d2"], [⟨"A", [some 1]⟩]⟩ none).1 = 2
    ∧ ((json_to_csv ⟨["d1 x", "d2"], [⟨"A", [some 1]⟩]⟩ none).2).isSome = true := by
  have hA := json_to_csv_frame ⟨[], [⟨"A", [some 1]⟩]⟩ (some ⟨["old"], []⟩) none
  have hB := json_to_csv_frame ⟨["d1 x", "d2"], [⟨"A", [some 1]⟩]⟩ none
    (some ⟨["old"], []⟩)
  have hB2 := hB.2 (by simp) (by simp)
  exact ⟨hA.1 (Or.inl rfl), by simpa using hB2.1, hB2.2.2⟩

/-! ## Claim C5: totals are rounded sums -/

/-- C5 amended: every record produced by either normalizer has its
total equal to the sum of the record's present numeric values with
missing/null treated as zero, rounded per normalizer: 2 decimals in
bill_json_to_csv and 3 decimals in json_to_csv.  The precision follows
the normalizer, not the data domain: cost (dollar) chart payloads are
normalized by json_to_csv and therefore rounded to 3 decimals, not 2. -/
theorem normalized_total_is_rounded_sum (bc : BillChart) (cd : ChartData)
    (r : BillRow) (row : ChartRow) :
    (r ∈ billRows bc → r.total = pyRound 2 (r.elec + r.gas))
    ∧ (row ∈ chartRows cd →
        row.total = pyRound 3 ((row.vals.map fun v => v.getD 0).sum)) := by
  constructor
  · intro hr
    rw [billRows_eq_map_filter, List.mem_map] at hr
    obtain ⟨p, hp, hf⟩ := hr
    subst hf
    rfl
  · intro hrow
    unfold chartRows at hrow
    rw [List.mem_map] at hrow
    obtain ⟨p, hp, hf⟩ := hrow
    subst hf
    rfl

/-- Witness for C5 on concrete payloads: in the bill row for a 1-element
Electric Charges series the total is round(1 + 0, 2), and in the chart
row for series value 1 the total is round(1, 3). -/
theorem normalized_total_is_rounded_sum_witness :
    (billRowAt ⟨["01/02/2024"], [⟨"Electric Charges", [some 1]⟩]⟩ 0 "01/02/2024").total
        = pyRound 2
          ((billRowAt ⟨["01/02/2024"], [⟨"Electric Charges", [some 1]⟩]⟩ 0 "01/02/2024").elec
            + (billRowAt ⟨["01/02/2024"], [⟨"Electric Charges", [some 1]⟩]⟩ 0 "01/02/2024").gas)
    ∧ (chartRowAt [⟨"A", [some 1]⟩] 0 "01/02/2024").total
        = pyRound 3
          (((chartRowAt [⟨"A", [some 1]⟩] 0 "01/02/2024").vals.map fun v => v.getD 0).sum) := by
  have h := normalized_total_is_rounded_sum
    ⟨["01/02/2024"], [⟨"Electric Charges", [some 1]⟩]⟩
    ⟨["01/02/2024"], [⟨"A", [some 1]⟩]⟩
    (billRowAt ⟨["01/02/2024"], [⟨"Electric Charges", [some 1]⟩]⟩ 0 "01/02/2024")
    (chartRowAt [⟨"A", [some 1]⟩] 0 "01/02/2024")
  constructor
  · refine h.1 ?_
    rw [billRows_eq_map_filter]
    refine List.mem_map.mpr ⟨(0, "01/02/2024"), ?_, rfl⟩
    refine List.mem_filter.mpr ⟨by decide, by decide⟩
  · refine h.2 ?_
    unfold chartRows
    refine List.mem_map.mpr ⟨(0, "01/02/2024"), ?_, rfl⟩
    decide

/-! ## Claim C6: the drop-if-zero policy -/

theorem pyRound_zero (n : ℕ) : pyRound n 0 = 0 := by
  have h : roundHalfEven 0 = 0 := by norm_num [roundHalfEven]
  simp [pyRound, h]

/-- C6: with the drop-if-zero policy enabled (bill_json_to_csv), a
record whose every configured series value at a category index is zero
or absent is omitted: every emitted bill row has a non-zero charge, and
the number of emitted rows is exactly the number of category indices
passing the non-zero test.  With the policy disabled (json_to_csv), the
record is retained: one row per category, and an all-zero/absent index
still yields its row, with total 0. -/
theorem drop_if_zero_policy (bc : BillChart) (cd : ChartData) (i : ℕ) :
    (∀ r ∈ billRows bc, r.elec ≠ 0 ∨ r.gas ≠ 0)
    ∧ (billRows bc).length
        = ((List.range bc.categories.length).filter (billKeep bc)).length
    ∧ (chartRows cd).length = cd.column_fulldates.length
    ∧ (i < cd.column_fulldates.length →
        (∀ s ∈ cd.series_data, (s.data.getD i (some 0)).getD 0 = 0) →
        ((chartRows cd).getD i ⟨"", [], 0⟩).total = 0) := by
  refine ⟨?_, ?_, ?_, ?_⟩
  · intro r hr
    rw [billRows_eq_map_filter, List.mem_map] at hr
    obtain ⟨p, hp, hf⟩ := hr
    have hk : billKeep bc p.1 = true := (List.mem_filter.mp hp).2
    subst hf
    unfold billKeep pyTruthy at hk
    rcases Bool.or_eq_true_iff.mp hk with h | h
    · exact Or.inl (of_decide_eq_true h)
    · exact Or.inr (of_decide_eq_true h)
  · rw [billRows_eq_map_filter, List.length_map]
    have h := length_filter_enumFrom_fst (billKeep bc) bc.categories 0
    simpa [List.enum, List.range_eq_range'] using h
  · simp [chartRows, chartDates]
  · intro hi hz
    have hlen : i < (chartRows cd).length := by
      simpa [chartRows, chartDates] using hi
    rw [List.getD_eq_getElem _ _ hlen]
    unfold chartRows
    rw [List.getElem_map]
    have hlen2 : i < (chartDates cd).enum.length := by
      simpa [chartRows] using hlen
    have henum : (chartDates cd).enum[i].1 = i := by
      simp
    rw [henum]
    show pyRound 3 (((chartVals cd.series_data i).map fun v => v.getD 0).sum) = 0
    have hsum : ((chartVals cd.series_data i).map fun v => v.getD 0).sum = 0 := by
      refine List.sum_eq_zero ?_
      intro x hx
      rw [List.mem_map] at hx
      obtain ⟨v, hv, hvx⟩ := hx
      unfold chartVals at hv
      rw [List.mem_map] at hv
      obtain ⟨s, hs, hsv⟩ := hv
      subst hsv hvx
      exact hz s hs
    rw [hsum]
    exact pyRound_zero 3

/-- Witness for C6: a category whose only values are zero is dropped by
the bill normalizer and kept with total 0 by the chart normalizer. -/
theorem drop_if_zero_policy_witness :
    billRows ⟨["01/02/2024"], [⟨"Electric Charges", [some 0]⟩]⟩ = []
    ∧ ((chartRows ⟨["01/02/2024"], [⟨"A", [some 0]⟩]⟩).getD 0 ⟨"", [], 0⟩).total = 0 := by
  have h := drop_if_zero_policy ⟨["01/02/2024"], [⟨"Electric Charges", [some 0]⟩]⟩
    ⟨["01/02/2024"], [⟨"A", [some 0]⟩]⟩ 0
  constructor
  · have hl : (billRows ⟨["01/02/2024"],
        [⟨"Electric Charges", [some 0]⟩]⟩ : List BillRow).length = 0 := by
      rw [h.2.1]; decide
    exact List.length_eq_zero.mp hl
  · refine h.2.2.2 (by decide) ?_
    intro s hs
    rw [List.mem_singleton] at hs
    subst hs
    rfl

/-! ## Claim C8: fetch classification -/

/-- C8 counterexample: status 204 lies inside the 2xx range, yet the
code raises on it (only status 200 is accepted), so a response is not
classified as a fetch error exactly when the status is outside 2xx. -/
theorem fetch_2xx_counterexample :
    classify_fetch 204 (some ⟨[], []⟩) = .fetchError 204
    ∧ 200 ≤ 204 ∧ 204 < 300 := by
  refine ⟨by decide, by decide, by decide⟩

/-- C8 amended: a fetch is classified as FetchError(status) exactly when
the HTTP status differs from 200 (non-200 statuses inside the 2xx range
included), as DecodeError exactly when the status is 200 and the body is
unparseable, and succeeds exactly when the status is 200 and the body
parses; the classification is a function of the single response, so no
retry occurs. -/
theorem fetch_classification (status : ℕ) (body : Option ChartData) :
    (∀ s, classify_fetch status body = .fetchError s ↔ s = status ∧ status ≠ 200)
    ∧ (classify_fetch status body = .decodeError ↔ status = 200 ∧ body = none)
    ∧ (∀ p, classify_fetch status body = .ok p ↔ status = 200 ∧ body = some p) := by
  unfold classify_fetch
  by_cases h : status = 200
  · subst h
    cases body <;> simp
  · simp only [if_pos h]
    refine ⟨?_, ?_, ?_⟩
    · intro s
      constructor
      · intro he
        cases he
        exact ⟨rfl, h⟩
      · rintro ⟨rfl, _⟩
        rfl
    · simp [h]
    · intro p
      simp [h]

/-- Witness for C8 at a concrete failing response: status 500 yields
FetchError(500). -/
theorem fetch_classification_witness :
    classify_fetch 500 none = .fetchError 500 := by
  exact ((fetch_classification 500 none).1 500).mpr ⟨rfl, by decide⟩

/-! ## Claim C9: parse_money -/

/-- C9 counterexample: the input consisting of a bare hyphen is a
non-numeric string, but parse_money raises (float("-") is a ValueError)
instead of returning 0.0. -/
theorem parse_money_counterexample :
    parse_money "-" = none ∧ parse_money "-" ≠ some 0 := by
  refine ⟨by decide, by decide⟩

theorem charDigitToNat :
    ('0'.toNat = 48 ∧ '1'.toNat = 49 ∧ '2'.toNat = 50 ∧ '3'.toNat = 51 ∧
     '4'.toNat = 52 ∧ '5'.toNat = 53 ∧ '6'.toNat = 54 ∧ '7'.toNat = 55 ∧
     '8'.toNat = 56 ∧ '9'.toNat = 57) := by
  decide

/-- C9 amended: parse_money maps "$1,234.56" to 1234.56 and "-12.50" to
-12.5, and maps the empty string, and more generally every string
containing no digit, dot or hyphen, to 0.0; but on a string whose kept
characters do not form a float literal (such as a bare hyphen) it raises
instead of returning 0.0. -/
theorem parse_money_amended (s : String) :
    parse_money "$1,234.56" = some (30864/25)
    ∧ parse_money "-12.50" = some (-25/2)
    ∧ parse_money "" = some 0
    ∧ ((∀ c ∈ s.data, keepMoneyChar c = false) → parse_money s = some 0)
    ∧ parse_money "-" = none := by
  refine ⟨?_, ?_, by decide, ?_, by decide⟩
  · norm_num +decide [parse_money, stripMoney, pyFloatLit?, pyFloatUnsigned?,
      digitsVal?, digitsNat, keepMoneyChar, splitOnCharList, charDigitToNat.1,
      charDigitToNat.2.1, charDigitToNat.2.2.1, charDigitToNat.2.2.2.1,
      charDigitToNat.2.2.2.2.1, charDigitToNat.2.2.2.2.2.1,
      charDigitToNat.2.2.2.2.2.2.1]
  · norm_num +decide [parse_money, stripMoney, pyFloatLit?, pyFloatUnsigned?,
      digitsVal?, digitsNat, keepMoneyChar, splitOnCharList, charDigitToNat.1,
      charDigitToNat.2.1, charDigitToNat.2.2.1, charDigitToNat.2.2.2.1,
      charDigitToNat.2.2.2.2.1, charDigitToNat.2.2.2.2.2.1,
      charDigitToNat.2.2.2.2.2.2.1]
  · intro hc
    have hs : stripMoney s = "" := by
      unfold stripMoney
      have h0 : s.data.filter keepMoneyChar = [] := by
        rw [List.filter_eq_nil_iff]
        intro c hcm
        simp [hc c hcm]
      rw [h0]
    unfold parse_money
    rw [hs]
    decide

/-- Witness for C9 at a concrete digit-free string: parse_money maps
"abc" to 0.0. -/
theorem parse_money_amended_witness : parse_money "abc" = some 0 :=
  (parse_money_amended "abc").2.2.2.1 (by decide)

/-! ## Claim C4: interval normalization -/

instance : IsTotal OdrRow odrLe :=
  ⟨fun a b => le_total a.unix_ms b.unix_ms⟩

instance : IsTrans OdrRow odrLe :=
  ⟨fun _ _ _ hab hbc => le_trans hab hbc⟩

/-- C4 counterexample: two well-formed interval items sharing the epoch
value 5 are both retained, so the output epochs are [5000, 5000], which
is not strictly ascending. -/
theorem intervals_strict_sort_counterexample :
    ((intervals_to_csv
        [⟨some "a", some 5, some 1, none⟩,
         ⟨some "b", some 5, some 2, none⟩]).2.rows.map fun r => r.unix_ms)
      = [5000, 5000]
    ∧ ¬ List.Sorted (fun a b : ℤ => a < b) [5000, 5000] := by
  constructor
  · decide
  · intro h
    have := List.rel_of_sorted_cons h 5000 (by decide)
    omega

/-- C4 amended: the output of intervals_to_csv is sorted ascending
(non-decreasing) by the epoch field, is a permutation of the rows built
from exactly the well-formed items (those with a timestamp string, an
epoch and an amount), and is strictly ascending whenever the well-formed
items carry pairwise distinct epochs. -/
theorem intervals_to_csv_amended (l : List IntervalItem) :
    List.Sorted odrLe (intervals_to_csv l).2.rows
    ∧ ((intervals_to_csv l).2.rows).Perm
        ((l.filter wellFormedInterval).map mkOdrRow)
    ∧ (List.Pairwise
          (fun a b : IntervalItem =>
            a.last_request_unix_timestamp ≠ b.last_request_unix_timestamp)
          (l.filter wellFormedInterval) →
        List.Sorted (fun a b : OdrRow => a.unix_ms < b.unix_ms)
          (intervals_to_csv l).2.rows) := by
  have hsorted : List.Sorted odrLe (odrRows l) :=
    List.sorted_insertionSort odrLe ((l.filter wellFormedInterval).map mkOdrRow)
  have hperm : (odrRows l).Perm ((l.filter wellFormedInterval).map mkOdrRow) :=
    List.perm_insertionSort odrLe ((l.filter wellFormedInterval).map mkOdrRow)
  refine ⟨hsorted, hperm, ?_⟩
  intro hpw
  have hne : List.Pairwise (fun a b : OdrRow => a.unix_ms ≠ b.unix_ms)
      ((l.filter wellFormedInterval).map mkOdrRow) := by
    rw [List.pairwise_map]
    refine List.Pairwise.imp_of_mem ?_ hpw
    intro a b ha hb hab
    have hwa : wellFormedInterval a = true := (List.mem_filter.mp ha).2
    have hwb : wellFormedInterval b = true := (List.mem_filter.mp hb).2
    have hsa : a.last_request_unix_timestamp.isSome = true := by
      unfold wellFormedInterval at hwa
      exact (Bool.and_eq_true_iff.mp (Bool.and_eq_true_iff.mp hwa).1).2
    have hsb : b.last_request_unix_timestamp.isSome = true := by
      unfold wellFormedInterval at hwb
      exact (Bool.and_eq_true_iff.mp (Bool.and_eq_true_iff.mp hwb).1).2
    obtain ⟨x, hx⟩ := Option.isSome_iff_exists.mp hsa
    obtain ⟨y, hy⟩ := Option.isSome_iff_exists.mp hsb
    unfold mkOdrRow
    simp only [hx, hy, Option.getD_some]
    intro heq
    have hxy : x = y := by
      have := mul_right_cancel₀ (b := (1000 : ℤ)) (by norm_num) heq
      exact this
    exact hab (by rw [hx, hy, hxy])
  have hne2 : List.Pairwise (fun a b : OdrRow => a.unix_ms ≠ b.unix_ms)
      (odrRows l) := by
    refine (List.Perm.pairwise_iff ?_ hperm).mpr hne
    intro a b hab
    exact fun h => hab h.symm
  have hcombined := List.Pairwise.and hsorted hne2
  refine hcombined.imp ?_
  intro a b hab
  exact lt_of_le_of_ne hab.1 hab.2

/-- Witness for C4 at a concrete reversed input with distinct epochs:
the output is strictly ascending by epoch. -/
theorem intervals_to_csv_amended_witness :
    List.Sorted (fun a b : OdrRow => a.unix_ms < b.unix_ms)
      (intervals_to_csv
        [⟨some "a", some 7, some 2, none⟩,
         ⟨some "b", some 5, some 1, some "off-peak"⟩]).2.rows :=
  (intervals_to_csv_amended
    [⟨some "a", some 7, some 2, none⟩,
     ⟨some "b", some 5, some 1, some "off-peak"⟩]).2.2 (by decide)

/-! ## Claim C7: category-label date conversion -/

/-- C7 counterexample: on the claim's own example payload, json_to_csv
leaves the labels in their raw MM/DD/YYYY form (it only truncates at the
first space, converting nothing), and bill_json_to_csv, the normalizer
that does convert dates, emits no record at all for a series named A
because A is not one of its configured series. -/
theorem series_iso_date_counterexample :
    ((chartRows ⟨["01/02/2024", "01/03/2024"],
        [⟨"A", [some 1, some 2]⟩]⟩).map fun r => r.date)
      = ["01/02/2024", "01/03/2024"]
    ∧ (["01/02/2024", "01/03/2024"] : List String) ≠ ["2024-01-02", "2024-01-03"]
    ∧ billRows ⟨["01/02/2024", "01/03/2024"], [⟨"A", [some 1, some 2]⟩]⟩ = [] := by
  refine ⟨by decide, by decide, by decide⟩

/-- C7 amended: bill_json_to_csv converts each parseable MM/DD/YYYY
category label to the canonical ISO date and falls back to the raw label
unchanged when parsing fails; its rows are dropped only by the zero-value
policy, never because a date is unparseable (the emitted dates are
exactly billDate of the value-retained categories).  json_to_csv performs
no date conversion: it keeps each label up to its first space, so the
example categories come through as 01/02/2024 and 01/03/2024 with values
1 and 2 and totals 1 and 2; on the bill side the example only produces
ISO-dated records when the series uses a configured name. -/
theorem series_date_conversion_amended (bc : BillChart) :
    ((billRows ⟨["01/02/2024", "01/03/2024"],
        [⟨"Electric Charges", [some 1, some 2]⟩]⟩).map fun r => r.date)
      = ["2024-01-02", "2024-01-03"]
    ∧ ((billRows ⟨["01/02/2024", "01/03/2024"],
        [⟨"Electric Charges", [some 1, some 2]⟩]⟩).map fun r => r.total) = [1, 2]
    ∧ ((billRows ⟨["bad-date"], [⟨"Electric Charges", [some 3]⟩]⟩).map
        fun r => r.date) = ["bad-date"]
    ∧ ((billRows bc).map fun r => r.date)
        = ((bc.categories.enum.filter fun p => billKeep bc p.1).map
            fun p => billDate p.2)
    ∧ ((chartRows ⟨["01/02/2024", "01/03/2024"],
        [⟨"A", [some 1, some 2]⟩]⟩).map fun r => r.date)
      = ["01/02/2024", "01/03/2024"]
    ∧ ((chartRows ⟨["01/02/2024", "01/03/2024"],
        [⟨"A", [some 1, some 2]⟩]⟩).map fun r => r.total) = [1, 2] := by
  refine ⟨by decide, ?_, by decide, ?_, by decide, ?_⟩
  · have he : ((billRows ⟨["01/02/2024", "01/03/2024"],
        [⟨"Electric Charges", [some 1, some 2]⟩]⟩).map fun r => r.total)
        = [pyRound 2 (1 + 0), pyRound 2 (2 + 0)] := by rfl
    rw [he]
    norm_num [pyRound, roundHalfEven]
  · rw [billRows_eq_map_filter, List.map_map]
    rfl
  · have he : ((chartRows ⟨["01/02/2024", "01/03/2024"],
        [⟨"A", [some 1, some 2]⟩]⟩).map fun r => r.total)
        = [pyRound 3 (1 + 0), pyRound 3 (2 + 0)] := by rfl
    rw [he]
    norm_num [pyRound, roundHalfEven]

/-! ## Lemmas on the query codec (towards claim C3) -/

theorem hexVal?_hexDigitChar (m : ℕ) (hm : m < 16) :
    hexVal? (hexDigitChar m) = some m := by
  have h : ∀ k : Fin 16, hexVal? (hexDigitChar k.val) = some k.val := by decide
  exact h ⟨m, hm⟩

theorem hexDigitChar_ne (m : ℕ) (hm : m < 16) :
    hexDigitChar m ≠ '&' ∧ hexDigitChar m ≠ '=' ∧ hexDigitChar m ≠ '+'
      ∧ hexDigitChar m ≠ '%' := by
  have h : ∀ k : Fin 16, hexDigitChar k.val ≠ '&' ∧ hexDigitChar k.val ≠ '='
      ∧ hexDigitChar k.val ≠ '+' ∧ hexDigitChar k.val ≠ '%' := by decide
  exact h ⟨m, hm⟩

theorem isUrlSafe_ne (c : Char) (h : isUrlSafe c = true) :
    c ≠ '%' ∧ c ≠ '+' ∧ c ≠ '&' ∧ c ≠ '=' ∧ c ≠ ' ' := by
  refine ⟨?_, ?_, ?_, ?_, ?_⟩ <;> (rintro rfl; revert h; decide)

theorem percentDecode_cons (c : Char) (rest : List Char) (h : c ≠ '%') :
    percentDecode (c :: rest) = c :: percentDecode rest := by
  rw [percentDecode.eq_def]
  split
  · rename_i heq
    exact absurd heq (by simp)
  · rename_i h1 h2 rest2 heq
    injection heq with hc hr
    exact absurd hc h
  · rename_i c2 rest2 heq
    injection heq with hc hr
    subst hc
    subst hr
    rfl

theorem percentDecode_hex (h1 h2 : Char) (rest : List Char) (a b : ℕ)
    (e1 : hexVal? h1 = some a) (e2 : hexVal? h2 = some b) :
    percentDecode ('%' :: h1 :: h2 :: rest)
      = Char.ofNat (16 * a + b) :: percentDecode rest := by
  simp [percentDecode, e1, e2]

theorem decode_quote_step (c : Char) (rest : List Char) (hc : c.toNat < 256) :
    percentDecode ((quotePlusChar c).map plusToSpace ++ rest)
      = c :: percentDecode rest := by
  by_cases hs : isUrlSafe c = true
  · obtain ⟨h1, h2, _, _, _⟩ := isUrlSafe_ne c hs
    simp only [quotePlusChar, if_pos hs, List.map_cons, List.map_nil,
      List.cons_append, List.nil_append]
    rw [show plusToSpace c = c from if_neg h2]
    exact percentDecode_cons c rest h1
  · by_cases hsp : c = ' '
    · subst hsp
      have henc : quotePlusChar ' ' = ['+'] := by decide
      rw [henc, List.map_cons, List.map_nil, List.cons_append, List.nil_append,
        show plusToSpace '+' = ' ' from rfl]
      exact percentDecode_cons ' ' rest (by decide)
    · have ha : c.toNat / 16 % 16 < 16 := Nat.mod_lt _ (by norm_num)
      have hb : c.toNat % 16 < 16 := Nat.mod_lt _ (by norm_num)
      obtain ⟨_, _, hp1, hq1⟩ := hexDigitChar_ne _ ha
      obtain ⟨_, _, hp2, hq2⟩ := hexDigitChar_ne _ hb
      simp only [quotePlusChar, hs, Bool.false_eq_true, if_false, hsp, toHexPair,
        List.map_cons, List.map_nil, List.cons_append, List.nil_append]
      rw [show plusToSpace '%' = '%' from rfl,
        show plusToSpace (hexDigitChar (c.toNat / 16 % 16))
            = hexDigitChar (c.toNat / 16 % 16) from if_neg hp1,
        show plusToSpace (hexDigitChar (c.toNat % 16))
            = hexDigitChar (c.toNat % 16) from if_neg hp2,
        percentDecode_hex _ _ rest _ _ (hexVal?_hexDigitChar _ ha)
          (hexVal?_hexDigitChar _ hb)]
      have hval : 16 * (c.toNat / 16 % 16) + c.toNat % 16 = c.toNat := by
        have hdiv : c.toNat / 16 < 16 := by omega
        rw [Nat.mod_eq_of_lt hdiv]
        exact Nat.div_add_mod c.toNat 16
      rw [hval, Char.ofNat_toNat]

theorem unquote_quote_roundtrip (l : List Char) (hl : ∀ c ∈ l, c.toNat < 256) :
    unquotePlusList (quotePlusList l) = l := by
  induction l with
  | nil => rfl
  | cons c l ih =>
      have hc := hl c (List.mem_cons_self c l)
      have hstep : quotePlusList (c :: l) = quotePlusChar c ++ quotePlusList l := by
        simp [quotePlusList]
      unfold unquotePlusList
      rw [hstep, List.map_append, decode_quote_step c _ hc]
      have ihr := ih fun x hx => hl x (List.mem_cons_of_mem c hx)
      unfold unquotePlusList at ihr
      rw [ihr]

theorem splitOnCharList_ne_nil (sep : Char) (l : List Char) :
    splitOnCharList sep l ≠ [] := by
  cases l with
  | nil => simp [splitOnCharList]
  | cons c rest =>
      simp only [splitOnCharList]
      cases h : splitOnCharList sep rest with
      | nil => by_cases hc : c = sep <;> simp [hc]
      | cons g gs => by_cases hc : c = sep <;> simp [hc]

theorem splitOnCharList_no_sep (sep : Char) (l : List Char)
    (h : ∀ c ∈ l, c ≠ sep) :
    splitOnCharList sep l = [l] := by
  induction l with
  | nil => rfl
  | cons c rest ih =>
      have hc : c ≠ sep := h c (List.mem_cons_self c rest)
      have ihr := ih fun x hx => h x (List.mem_cons_of_mem c hx)
      simp only [splitOnCharList, ihr]
      simp [hc]

theorem splitOnCharList_sep_cons (sep : Char) (l : List Char) :
    splitOnCharList sep (sep :: l) = [] :: splitOnCharList sep l := by
  simp only [splitOnCharList]
  cases h : splitOnCharList sep l with
  | nil => exact absurd h (splitOnCharList_ne_nil sep l)
  | cons g gs => simp

theorem splitOnCharList_sepFree_append (sep : Char) (xs : List Char)
    (l : List Char) (h : ∀ c ∈ xs, c ≠ sep) :
    splitOnCharList sep (xs ++ l)
      = (xs ++ (splitOnCharList sep l).headD []) :: (splitOnCharList sep l).tail := by
  induction xs with
  | nil =>
      simp only [List.nil_append]
      cases hsp : splitOnCharList sep l with
      | nil => exact absurd hsp (splitOnCharList_ne_nil sep l)
      | cons g gs => simp
  | cons x xs ih =>
      have hx : x ≠ sep := h x (List.mem_cons_self x xs)
      have ihr := ih fun c hc => h c (List.mem_cons_of_mem x hc)
      simp only [List.cons_append, splitOnCharList, List.append_eq]
      rw [ihr]
      simp [hx]

theorem splitOnCharList_intercalate (sep : Char) :
    ∀ ps : List (List Char), ps ≠ [] → (∀ p ∈ ps, ∀ c ∈ p, c ≠ sep) →
      splitOnCharList sep (List.intercalate [sep] ps) = ps := by
  intro ps
  induction ps with
  | nil => intro h; exact absurd rfl h
  | cons p ps ih =>
      intro _ hfree
      cases ps with
      | nil =>
          have hp : List.intercalate [sep] [p] = p := by
            simp [List.intercalate]
          rw [hp]
          exact splitOnCharList_no_sep sep p (hfree p (List.mem_cons_self p []))
      | cons q ps2 =>
          have hint : List.intercalate [sep] (p :: q :: ps2)
              = p ++ sep :: List.intercalate [sep] (q :: ps2) := by
            simp [List.intercalate, List.intersperse_cons_cons]
          rw [hint, splitOnCharList_sepFree_append sep p _
            (hfree p (List.mem_cons_self p (q :: ps2))),
            splitOnCharList_sep_cons]
          have ihr := ih (by simp)
            (fun r hr => hfree r (List.mem_cons_of_mem p hr))
          rw [ihr]
          simp

theorem hexVal?_lt (c : Char) (a : ℕ) (h : hexVal? c = some a) : a < 16 := by
  unfold hexVal? at h
  split_ifs at h with h1 h2 h3 <;> injection h with h <;> omega

theorem splitFirst_append (sep : Char) (a b : List Char)
    (h : ∀ c ∈ a, c ≠ sep) :
    splitFirst sep (a ++ sep :: b) = some (a, b) := by
  induction a with
  | nil => simp [splitFirst]
  | cons x a ih =>
      have hx : x ≠ sep := h x (List.mem_cons_self x a)
      have ihr := ih fun c hc => h c (List.mem_cons_of_mem x hc)
      simp only [List.cons_append, splitFirst, List.append_eq]
      rw [if_neg hx, ihr]

theorem quotePlusList_sep_free (l : List Char) :
    ∀ c ∈ quotePlusList l, c ≠ '&' ∧ c ≠ '=' := by
  intro c hc
  unfold quotePlusList at hc
  rw [List.mem_flatMap] at hc
  obtain ⟨x, hx, hcx⟩ := hc
  unfold quotePlusChar at hcx
  by_cases hs : isUrlSafe x = true
  · rw [if_pos hs, List.mem_singleton] at hcx
    subst hcx
    obtain ⟨_, _, h3, h4, _⟩ := isUrlSafe_ne c hs
    exact ⟨h3, h4⟩
  · rw [if_neg hs] at hcx
    by_cases hsp : x = ' '
    · rw [if_pos hsp, List.mem_singleton] at hcx
      subst hcx
      exact ⟨by decide, by decide⟩
    · rw [if_neg hsp, List.mem_cons] at hcx
      rcases hcx with rfl | hcx
      · exact ⟨by decide, by decide⟩
      · unfold toHexPair at hcx
        rw [List.mem_cons, List.mem_singleton] at hcx
        have ha : x.toNat / 16 % 16 < 16 := Nat.mod_lt _ (by norm_num)
        have hb : x.toNat % 16 < 16 := Nat.mod_lt _ (by norm_num)
        rcases hcx with rfl | rfl
        · obtain ⟨n1, n2, _, _⟩ := hexDigitChar_ne _ ha
          exact ⟨n1, n2⟩
        · obtain ⟨n1, n2, _, _⟩ := hexDigitChar_ne _ hb
          exact ⟨n1, n2⟩

theorem filterMap_map_eq_self {α β : Type} (g : α → β) (f : β → Option α)
    (l : List α) (h : ∀ x ∈ l, f (g x) = some x) :
    (l.map g).filterMap f = l := by
  induction l with
  | nil => rfl
  | cons a l ih =>
      simp only [List.map_cons, List.filterMap_cons, h a (List.mem_cons_self a l)]
      rw [ih fun x hx => h x (List.mem_cons_of_mem a hx)]

theorem percentDecode_bound : ∀ (l : List Char), (∀ c ∈ l, c.toNat < 256) →
    ∀ c ∈ percentDecode l, c.toNat < 256 := by
  intro l
  induction l using percentDecode.induct with
  | case1 =>
      intro _ c hc
      simp [percentDecode] at hc
  | case2 h1 h2 rest a b e2 e1 ih =>
      intro hl c hc
      rw [percentDecode_hex h1 h2 rest a b e1 e2, List.mem_cons] at hc
      rcases hc with rfl | hc
      · have ha := hexVal?_lt h1 a e1
        have hb := hexVal?_lt h2 b e2
        have hfin : ∀ x y : Fin 16, (Char.ofNat (16 * x.val + y.val)).toNat < 256 := by
          decide
        exact hfin ⟨a, ha⟩ ⟨b, hb⟩
      · refine ih ?_ c hc
        intro d hd
        exact hl d (by simp [List.mem_cons] at hd ⊢; tauto)
  | case3 h1 h2 rest e ih =>
      intro hl c hc
      have hd : percentDecode ('%' :: h1 :: h2 :: rest)
          = '%' :: percentDecode (h1 :: h2 :: rest) := by
        rw [percentDecode.eq_def]
        split
        · rename_i heq
          exact absurd heq (by simp)
        · rename_i g1 g2 grest heq
          injection heq with hp heq2
          injection heq2 with hh1 heq3
          injection heq3 with hh2 hr
          subst hh1
          subst hh2
          subst hr
          cases hv1 : hexVal? h1 with
          | some a =>
              cases hv2 : hexVal? h2 with
              | some b => exact (e a b hv1 hv2).elim
              | none => rfl
          | none => rfl
        · rename_i d drest hne2 heq
          injection heq with hd1 hd2
          exact (hne2 h1 h2 rest hd1.symm hd2.symm).elim
      rw [hd, List.mem_cons] at hc
      rcases hc with rfl | hc
      · decide
      · refine ih ?_ c hc
        intro d hd2
        exact hl d (by simp [List.mem_cons] at hd2 ⊢; tauto)
  | case4 c2 rest hne ih =>
      intro hl c hc
      have hd : percentDecode (c2 :: rest) = c2 :: percentDecode rest := by
        rw [percentDecode.eq_def]
        split
        · rename_i heq
          exact absurd heq (by simp)
        · rename_i g1 g2 grest heq
          injection heq with hp hr
          exact (hne g1 g2 grest hp hr).elim
        · rename_i d drest heq
          injection heq with hd1 hd2
          subst hd1
          subst hd2
          rfl
      rw [hd, List.mem_cons] at hc
      rcases hc with rfl | hc
      · exact hl c (List.mem_cons_self c rest)
      · refine ih ?_ c hc
        intro d hd2
        exact hl d (List.mem_cons_of_mem c2 hd2)

theorem unquotePlusList_bound (l : List Char) (hl : ∀ c ∈ l, c.toNat < 256) :
    ∀ c ∈ unquotePlusList l, c.toNat < 256 := by
  unfold unquotePlusList
  refine percentDecode_bound _ ?_
  intro c hc
  rw [List.mem_map] at hc
  obtain ⟨d, hd, hdc⟩ := hc
  subst hdc
  unfold plusToSpace
  by_cases h : d = '+'
  · rw [if_pos h]; decide
  · rw [if_neg h]; exact hl d hd

theorem mem_of_mem_splitOnCharList (sep : Char) :
    ∀ (l p : List Char), p ∈ splitOnCharList sep l → ∀ c ∈ p, c ∈ l := by
  intro l
  induction l with
  | nil =>
      intro p hp c hc
      simp [splitOnCharList] at hp
      subst hp
      simp at hc
  | cons x l ih =>
      intro p hp c hc
      simp only [splitOnCharList] at hp
      cases hr : splitOnCharList sep l with
      | nil => exact absurd hr (splitOnCharList_ne_nil sep l)
      | cons g gs =>
          rw [hr] at hp
          replace hp : p ∈ (if x = sep then ([] : List Char) :: g :: gs
              else (x :: g) :: gs) := hp
          by_cases hx : x = sep
          · rw [if_pos hx, List.mem_cons] at hp
            rcases hp with rfl | hp
            · simp at hc
            · have hp2 : p ∈ splitOnCharList sep l := by rw [hr]; exact hp
              exact List.mem_cons_of_mem x (ih p hp2 c hc)
          · rw [if_neg hx, List.mem_cons] at hp
            rcases hp with rfl | hp
            · rw [List.mem_cons] at hc
              rcases hc with rfl | hc
              · exact List.mem_cons_self c l
              · have hg : g ∈ splitOnCharList sep l := by
                  rw [hr]; exact List.mem_cons_self g gs
                exact List.mem_cons_of_mem x (ih g hg c hc)
            · have hp2 : p ∈ splitOnCharList sep l := by
                rw [hr]; exact List.mem_cons_of_mem g hp
              exact List.mem_cons_of_mem x (ih p hp2 c hc)

theorem splitFirst_mem (sep : Char) :
    ∀ (l a b : List Char), splitFirst sep l = some (a, b) →
      (∀ c ∈ a, c ∈ l) ∧ (∀ c ∈ b, c ∈ l) := by
  intro l
  induction l with
  | nil => intro a b h; simp [splitFirst] at h
  | cons x l ih =>
      intro a b h
      simp only [splitFirst] at h
      by_cases hx : x = sep
      · rw [if_pos hx] at h
        cases h
        constructor
        · intro c hc; simp at hc
        · intro c hc; exact List.mem_cons_of_mem x hc
      · rw [if_neg hx] at h
        cases hr : splitFirst sep l with
        | none => rw [hr] at h; exact absurd h (by simp)
        | some nv =>
            obtain ⟨a2, b2⟩ := nv
            rw [hr] at h
            cases h
            obtain ⟨h1, h2⟩ := ih _ _ hr
            constructor
            · intro c hc
              rw [List.mem_cons] at hc
              rcases hc with rfl | hc
              · exact List.mem_cons_self c l
              · exact List.mem_cons_of_mem x (h1 c hc)
            · intro c hc
              exact List.mem_cons_of_mem x (h2 c hc)

theorem parseQsl_bound (qs : String) (hq : ∀ c ∈ qs.data, c.toNat < 256) :
    ∀ kv ∈ parseQsl qs,
      (∀ c ∈ kv.1.data, c.toNat < 256) ∧ (∀ c ∈ kv.2.data, c.toNat < 256) := by
  intro kv hkv
  unfold parseQsl at hkv
  rw [List.mem_filterMap] at hkv
  obtain ⟨seg, hseg, hf⟩ := hkv
  have hsegb : ∀ c ∈ seg, c.toNat < 256 :=
    fun c hc => hq c (mem_of_mem_splitOnCharList '&' qs.data seg hseg c hc)
  by_cases he : seg.isEmpty = true
  · rw [if_pos he] at hf
    exact absurd hf (by simp)
  · rw [if_neg he] at hf
    cases hsp : splitFirst '=' seg with
    | some nv =>
        obtain ⟨n, v⟩ := nv
        rw [hsp] at hf
        cases hf
        obtain ⟨hn, hv⟩ := splitFirst_mem '=' seg n v hsp
        constructor
        · intro c hc
          exact unquotePlusList_bound n (fun d hd => hsegb d (hn d hd)) c hc
        · intro c hc
          exact unquotePlusList_bound v (fun d hd => hsegb d (hv d hd)) c hc
    | none =>
        rw [hsp] at hf
        cases hf
        constructor
        · intro c hc
          exact unquotePlusList_bound seg hsegb c hc
        · intro c hc
          exact absurd hc (by simp)

/-- The ordered flat pair list represented by a grouped dict. -/
def flatPairs (d : List (String × List String)) : List (String × String) :=
  d.flatMap fun kv => kv.2.map fun v => (kv.1, v)

/-- The key list of a grouped dict, in order. -/
def dictKeys (d : List (String × List String)) : List String :=
  d.map fun kv => kv.1

theorem insertPair_absent (d : List (String × List String)) (k v : String)
    (h : ∀ kv ∈ d, kv.1 ≠ k) :
    insertPair d k v = d ++ [(k, [v])] := by
  induction d with
  | nil => rfl
  | cons kv d ih =>
      obtain ⟨k1, vs⟩ := kv
      have hk : k1 ≠ k := h (k1, vs) (List.mem_cons_self _ _)
      simp only [insertPair]
      rw [if_neg hk, ih fun kv2 h2 => h kv2 (List.mem_cons_of_mem _ h2)]
      rfl

theorem insertPair_present (pre post : List (String × List String))
    (k : String) (ws : List String) (v : String)
    (h : ∀ kv ∈ pre, kv.1 ≠ k) :
    insertPair (pre ++ (k, ws) :: post) k v = pre ++ (k, ws ++ [v]) :: post := by
  induction pre with
  | nil => simp [insertPair]
  | cons kv pre ih =>
      obtain ⟨k1, vs⟩ := kv
      have hk : k1 ≠ k := h (k1, vs) (List.mem_cons_self _ _)
      simp only [List.cons_append, insertPair, List.append_eq]
      rw [if_neg hk, ih fun kv2 h2 => h kv2 (List.mem_cons_of_mem _ h2)]

theorem foldl_insertPair_same_key (k : String) :
    ∀ (vs : List String) (pre post : List (String × List String))
      (ws : List String), (∀ kv ∈ pre, kv.1 ≠ k) →
      List.foldl (fun g kv => insertPair g kv.1 kv.2)
          (pre ++ (k, ws) :: post) (vs.map fun v => (k, v))
        = pre ++ (k, ws ++ vs) :: post := by
  intro vs
  induction vs with
  | nil =>
      intro pre post ws hp
      simp
  | cons v vs ih =>
      intro pre post ws hp
      simp only [List.map_cons, List.foldl_cons]
      rw [insertPair_present pre post k ws v hp, ih pre post (ws ++ [v]) hp]
      simp

theorem foldl_insertPair_groups :
    ∀ (d acc : List (String × List String)),
      (∀ kv ∈ d, kv.2 ≠ []) →
      List.Nodup (dictKeys d) →
      (∀ kv1 ∈ acc, ∀ kv2 ∈ d, kv1.1 ≠ kv2.1) →
      List.foldl (fun g kv => insertPair g kv.1 kv.2) acc (flatPairs d)
        = acc ++ d := by
  intro d
  induction d with
  | nil =>
      intro acc _ _ _
      simp [flatPairs]
  | cons kv d ih =>
      intro acc hne hnd hdisj
      obtain ⟨k, vs⟩ := kv
      cases vs with
      | nil => exact absurd rfl (hne (k, []) (List.mem_cons_self _ _))
      | cons v vs2 =>
          simp only [flatPairs, List.flatMap_cons, List.map_cons,
            List.foldl_append, List.foldl_cons]
          have hkacc : ∀ kv2 ∈ acc, kv2.1 ≠ k :=
            fun kv2 h2 => hdisj kv2 h2 (k, v :: vs2) (List.mem_cons_self _ _)
          rw [insertPair_absent acc k v hkacc]
          have hsame := foldl_insertPair_same_key k vs2 acc [] [v] hkacc
          rw [show acc ++ [(k, [v])] = acc ++ (k, [v]) :: [] from rfl, hsame]
          have hnd2 : List.Nodup (dictKeys d) := (List.nodup_cons.mp hnd).2
          have hknotin : k ∉ dictKeys d := (List.nodup_cons.mp hnd).1
          have hdisj2 : ∀ kv1 ∈ acc ++ (k, [v] ++ vs2) :: [],
              ∀ kv2 ∈ d, kv1.1 ≠ kv2.1 := by
            intro kv1 h1 kv2 h2
            rw [List.mem_append, List.mem_singleton] at h1
            rcases h1 with h1 | rfl
            · exact hdisj kv1 h1 kv2 (List.mem_cons_of_mem _ h2)
            · intro hkk
              refine hknotin ?_
              have hm : kv2.1 ∈ dictKeys d := List.mem_map_of_mem (fun p => p.1) h2
              rw [show k = kv2.1 from hkk]
              exact hm
          have hih := ih (acc ++ (k, [v] ++ vs2) :: [])
            (fun kv2 h2 => hne kv2 (List.mem_cons_of_mem _ h2)) hnd2 hdisj2
          rw [show flatPairs d
              = d.flatMap (fun kv => kv.2.map fun v2 => (kv.1, v2)) from rfl] at hih
          rw [hih]
          simp

theorem mem_flatPairs (d : List (String × List String)) (p : String × String)
    (hp : p ∈ flatPairs d) : ∃ kv ∈ d, p.1 = kv.1 ∧ p.2 ∈ kv.2 := by
  unfold flatPairs at hp
  rw [List.mem_flatMap] at hp
  obtain ⟨kv, hkv, hpm⟩ := hp
  rw [List.mem_map] at hpm
  obtain ⟨v, hv, hpv⟩ := hpm
  subst hpv
  exact ⟨kv, hkv, rfl, hv⟩

theorem parse_seg_encodePair (k v : String)
    (hk : ∀ c ∈ k.data, c.toNat < 256) (hv : ∀ c ∈ v.data, c.toNat < 256) :
    (if (encodePair k v).isEmpty then none
     else
       match splitFirst '=' (encodePair k v) with
       | some (n, v2) =>
           some ((⟨unquotePlusList n⟩ : String), (⟨unquotePlusList v2⟩ : String))
       | none => some ((⟨unquotePlusList (encodePair k v)⟩ : String), ""))
      = some (k, v) := by
  have hne : (encodePair k v).isEmpty = false := by
    unfold encodePair
    cases h : quotePlusList k.data <;> simp
  rw [if_neg (by simp [hne])]
  have hsp : splitFirst '=' (encodePair k v)
      = some (quotePlusList k.data, quotePlusList v.data) := by
    unfold encodePair
    exact splitFirst_append '=' (quotePlusList k.data) (quotePlusList v.data)
      fun c hc => (quotePlusList_sep_free k.data c hc).2
  rw [hsp]
  show some ((⟨unquotePlusList (quotePlusList k.data)⟩ : String),
      (⟨unquotePlusList (quotePlusList v.data)⟩ : String)) = some (k, v)
  rw [unquote_quote_roundtrip k.data hk, unquote_quote_roundtrip v.data hv]

theorem parseQsl_urlencode (d : List (String × List String))
    (hb : ∀ kv ∈ d, (∀ c ∈ kv.1.data, c.toNat < 256)
      ∧ ∀ s ∈ kv.2, ∀ c ∈ s.data, c.toNat < 256) :
    parseQsl (urlencodeDoseq d) = flatPairs d := by
  have hsegs : (d.flatMap fun kv => kv.2.map fun v => encodePair kv.1 v)
      = (flatPairs d).map fun p => encodePair p.1 p.2 := by
    unfold flatPairs
    rw [List.map_flatMap]
    congr 1
    funext kv
    rw [List.map_map]
    rfl
  unfold parseQsl urlencodeDoseq
  rw [show (String.mk (List.intercalate ['&']
        (d.flatMap fun kv => kv.2.map fun v => encodePair kv.1 v))).data
      = List.intercalate ['&']
        (d.flatMap fun kv => kv.2.map fun v => encodePair kv.1 v) from rfl]
  rw [hsegs]
  by_cases hd0 : flatPairs d = []
  · rw [hd0]
    simp [List.intercalate, splitOnCharList]
  · have hfree : ∀ piece ∈ (flatPairs d).map fun p => encodePair p.1 p.2,
        ∀ c ∈ piece, c ≠ '&' := by
      intro piece hpiece c hc
      rw [List.mem_map] at hpiece
      obtain ⟨q, hq, hqp⟩ := hpiece
      subst hqp
      unfold encodePair at hc
      rw [List.mem_append, List.mem_cons] at hc
      rcases hc with hc | rfl | hc
      · exact (quotePlusList_sep_free _ c hc).1
      · decide
      · exact (quotePlusList_sep_free _ c hc).1
    rw [splitOnCharList_intercalate '&' _ (by simpa using hd0) hfree]
    refine filterMap_map_eq_self _ _ _ ?_
    intro p hp
    obtain ⟨kv, hkv, hp1, hp2⟩ := mem_flatPairs d p hp
    have hbk := hb kv hkv
    have hk : ∀ c ∈ p.1.data, c.toNat < 256 := by rw [hp1]; exact hbk.1
    have hv : ∀ c ∈ p.2.data, c.toNat < 256 := hbk.2 p.2 hp2
    exact parse_seg_encodePair p.1 p.2 hk hv

theorem dictKeys_insertPair (d : List (String × List String)) (k v : String) :
    dictKeys (insertPair d k v)
      = if k ∈ dictKeys d then dictKeys d else dictKeys d ++ [k] := by
  induction d with
  | nil => simp [insertPair, dictKeys]
  | cons kv d ih =>
      obtain ⟨k1, vs⟩ := kv
      by_cases hk : k1 = k
      · subst hk
        simp only [insertPair, if_pos rfl]
        simp [dictKeys]
      · simp only [insertPair, if_neg hk]
        by_cases hm : k ∈ dictKeys d
        · rw [show dictKeys ((k1, vs) :: insertPair d k v)
              = k1 :: dictKeys (insertPair d k v) from rfl, ih, if_pos hm]
          rw [show dictKeys ((k1, vs) :: d) = k1 :: dictKeys d from rfl,
            if_pos (List.mem_cons_of_mem k1 hm)]
        · rw [show dictKeys ((k1, vs) :: insertPair d k v)
              = k1 :: dictKeys (insertPair d k v) from rfl, ih, if_neg hm]
          have hnotin : ¬ k ∈ dictKeys ((k1, vs) :: d) := by
            simp only [dictKeys, List.map_cons, List.mem_cons]
            rintro (h | h)
            · exact hk h.symm
            · exact hm h
          rw [if_neg hnotin]
          simp [dictKeys]

theorem insertPair_values_ne (d : List (String × List String)) (k v : String)
    (h : ∀ kv ∈ d, kv.2 ≠ []) : ∀ kv ∈ insertPair d k v, kv.2 ≠ [] := by
  induction d with
  | nil =>
      intro kv hkv
      rw [show insertPair [] k v = [(k, [v])] from rfl, List.mem_singleton] at hkv
      subst hkv
      simp
  | cons kv0 d ih =>
      obtain ⟨k1, vs⟩ := kv0
      intro kv hkv
      by_cases hk : k1 = k
      · subst hk
        rw [show insertPair ((k1, vs) :: d) k1 v = (k1, vs ++ [v]) :: d by
          simp [insertPair], List.mem_cons] at hkv
        rcases hkv with rfl | hkv
        · simp
        · exact h kv (List.mem_cons_of_mem _ hkv)
      · rw [show insertPair ((k1, vs) :: d) k v = (k1, vs) :: insertPair d k v by
          simp [insertPair, hk], List.mem_cons] at hkv
        rcases hkv with rfl | hkv
        · exact h (k1, vs) (List.mem_cons_self _ _)
        · exact ih (fun q hq => h q (List.mem_cons_of_mem _ hq)) kv hkv

theorem insertPair_strbound (B : String → Prop)
    (d : List (String × List String)) (k v : String)
    (hd : ∀ kv ∈ d, B kv.1 ∧ ∀ s ∈ kv.2, B s) (hk : B k) (hv : B v) :
    ∀ kv ∈ insertPair d k v, B kv.1 ∧ ∀ s ∈ kv.2, B s := by
  induction d with
  | nil =>
      intro kv hkv
      rw [show insertPair [] k v = [(k, [v])] from rfl, List.mem_singleton] at hkv
      subst hkv
      refine ⟨hk, ?_⟩
      intro s hs
      rw [List.mem_singleton] at hs
      subst hs
      exact hv
  | cons kv0 d ih =>
      obtain ⟨k1, vs⟩ := kv0
      intro kv hkv
      by_cases hkk : k1 = k
      · subst hkk
        rw [show insertPair ((k1, vs) :: d) k1 v = (k1, vs ++ [v]) :: d by
          simp [insertPair], List.mem_cons] at hkv
        rcases hkv with rfl | hkv
        · obtain ⟨hb1, hb2⟩ := hd (k1, vs) (List.mem_cons_self _ _)
          refine ⟨hb1, ?_⟩
          intro s hs
          rw [List.mem_append, List.mem_singleton] at hs
          rcases hs with hs | rfl
          · exact hb2 s hs
          · exact hv
        · exact hd kv (List.mem_cons_of_mem _ hkv)
      · rw [show insertPair ((k1, vs) :: d) k v = (k1, vs) :: insertPair d k v by
          simp [insertPair, hkk], List.mem_cons] at hkv
        rcases hkv with rfl | hkv
        · exact hd (k1, vs) (List.mem_cons_self _ _)
        · exact ih (fun q hq => hd q (List.mem_cons_of_mem _ hq)) kv hkv

theorem foldl_insertPair_inv (B : String → Prop) :
    ∀ (pairs : List (String × String)) (acc : List (String × List String)),
      (∀ kv ∈ acc, kv.2 ≠ []) → List.Nodup (dictKeys acc) →
      (∀ kv ∈ acc, B kv.1 ∧ ∀ s ∈ kv.2, B s) →
      (∀ p ∈ pairs, B p.1 ∧ B p.2) →
      (∀ kv ∈ List.foldl (fun g kv => insertPair g kv.1 kv.2) acc pairs, kv.2 ≠ [])
      ∧ List.Nodup (dictKeys
          (List.foldl (fun g kv => insertPair g kv.1 kv.2) acc pairs))
      ∧ (∀ kv ∈ List.foldl (fun g kv => insertPair g kv.1 kv.2) acc pairs,
          B kv.1 ∧ ∀ s ∈ kv.2, B s) := by
  intro pairs
  induction pairs with
  | nil =>
      intro acc h1 h2 h3 _
      exact ⟨h1, h2, h3⟩
  | cons p ps ih =>
      intro acc h1 h2 h3 h4
      simp only [List.foldl_cons]
      refine ih (insertPair acc p.1 p.2) ?_ ?_ ?_
        (fun q hq => h4 q (List.mem_cons_of_mem p hq))
      · exact insertPair_values_ne acc p.1 p.2 h1
      · rw [dictKeys_insertPair]
        by_cases hm : p.1 ∈ dictKeys acc
        · rw [if_pos hm]; exact h2
        · rw [if_neg hm]
          refine List.Nodup.append h2 (List.nodup_singleton _) ?_
          intro a ha hb
          rw [List.mem_singleton] at hb
          subst hb
          exact hm ha
      · exact insertPair_strbound B acc p.1 p.2 h3
          (h4 p (List.mem_cons_self p ps)).1 (h4 p (List.mem_cons_self p ps)).2

theorem parseQs_inv (qs : String) (hq : ∀ c ∈ qs.data, c.toNat < 256) :
    (∀ kv ∈ parseQs qs, kv.2 ≠ [])
    ∧ List.Nodup (dictKeys (parseQs qs))
    ∧ (∀ kv ∈ parseQs qs, (∀ c ∈ kv.1.data, c.toNat < 256)
        ∧ ∀ s ∈ kv.2, ∀ c ∈ s.data, c.toNat < 256) := by
  unfold parseQs
  exact foldl_insertPair_inv (fun s => ∀ c ∈ s.data, c.toNat < 256)
    (parseQsl qs) [] (by simp) (by simp [dictKeys]) (by simp)
    (fun p hp => parseQsl_bound qs hq p hp)

theorem setParam_inv (B : String → Prop) (d : List (String × List String))
    (k v : String) (h1 : ∀ kv ∈ d, kv.2 ≠ [])
    (h2 : List.Nodup (dictKeys d))
    (h3 : ∀ kv ∈ d, B kv.1 ∧ ∀ s ∈ kv.2, B s) (hk : B k) (hv : B v) :
    (∀ kv ∈ setParam d k v, kv.2 ≠ [])
    ∧ List.Nodup (dictKeys (setParam d k v))
    ∧ (∀ kv ∈ setParam d k v, B kv.1 ∧ ∀ s ∈ kv.2, B s) := by
  unfold setParam
  by_cases hex : (d.any fun kv => kv.1 = k) = true
  · rw [if_pos hex]
    have hkeys : dictKeys (d.map fun kv => if kv.1 = k then (kv.1, [v]) else kv)
        = dictKeys d := by
      unfold dictKeys
      rw [List.map_map]
      refine List.map_congr_left ?_
      intro kv _
      by_cases hkk : kv.1 = k
      · simp [hkk]
      · simp [hkk]
    refine ⟨?_, by rw [hkeys]; exact h2, ?_⟩
    · intro kv hkv
      rw [List.mem_map] at hkv
      obtain ⟨kv0, hkv0, hf⟩ := hkv
      by_cases hkk : kv0.1 = k
      · rw [if_pos hkk] at hf
        subst hf
        simp
      · rw [if_neg hkk] at hf
        subst hf
        exact h1 kv0 hkv0
    · intro kv hkv
      rw [List.mem_map] at hkv
      obtain ⟨kv0, hkv0, hf⟩ := hkv
      by_cases hkk : kv0.1 = k
      · rw [if_pos hkk] at hf
        subst hf
        refine ⟨(h3 kv0 hkv0).1, ?_⟩
        intro s hs
        rw [List.mem_singleton] at hs
        subst hs
        exact hv
      · rw [if_neg hkk] at hf
        subst hf
        exact h3 kv0 hkv0
  · rw [if_neg hex]
    have hnotin : k ∉ dictKeys d := by
      intro hmem
      unfold dictKeys at hmem
      rw [List.mem_map] at hmem
      obtain ⟨kv0, hkv0, hf⟩ := hmem
      exact hex (List.any_eq_true.mpr ⟨kv0, hkv0, by simp [hf]⟩)
    refine ⟨?_, ?_, ?_⟩
    · intro kv hkv
      rw [List.mem_append, List.mem_singleton] at hkv
      rcases hkv with hkv | rfl
      · exact h1 kv hkv
      · simp
    · rw [show dictKeys (d ++ [(k, [v])]) = dictKeys d ++ [k] by
        unfold dictKeys; rw [List.map_append]; rfl]
      refine List.Nodup.append h2 (List.nodup_singleton _) ?_
      intro a ha hb
      rw [List.mem_singleton] at hb
      subst hb
      exact hnotin ha
    · intro kv hkv
      rw [List.mem_append, List.mem_singleton] at hkv
      rcases hkv with hkv | rfl
      · exact h3 kv hkv
      · refine ⟨hk, ?_⟩
        intro s hs
        rw [List.mem_singleton] at hs
        subst hs
        exact hv

theorem parseQs_urlencode (d : List (String × List String))
    (h1 : ∀ kv ∈ d, kv.2 ≠ []) (h2 : List.Nodup (dictKeys d))
    (h3 : ∀ kv ∈ d, (∀ c ∈ kv.1.data, c.toNat < 256)
      ∧ ∀ s ∈ kv.2, ∀ c ∈ s.data, c.toNat < 256) :
    parseQs (urlencodeDoseq d) = d := by
  unfold parseQs
  rw [parseQsl_urlencode d h3]
  have h := foldl_insertPair_groups d [] h1 h2 (by simp)
  simpa using h

/-! ## Claim C3: swap_usage_type -/

/-- C3 counterexample: on the query a=1&usageType=Q&a=2, the two
occurrences of the unrelated repeated parameter a are regrouped next to
each other by parse_qs/urlencode, so the output is not byte-for-byte
identical outside the replaced parameter and the relative structure of
the repeated parameter is not preserved. -/
theorem swap_usage_type_bytes_counterexample :
    swapQuery "a=1&usageType=Q&a=2" "C" = "a=1&a=2&usageType=C"
    ∧ ("a=1&a=2&usageType=C" : String) ≠ "a=1&usageType=C&a=2" := by
  refine ⟨by decide, by decide⟩

/-- C3 amended: swap_usage_type rebuilds only the query component of the
URL (all other components are unchanged), and the rebuilt query, re-read
with parse_qs, is exactly the original parsed parameter dict with the
usageType entry set to the single new value: every other parameter keeps
its decoded name and values and its first-occurrence order, but repeated
parameters are regrouped by name and every name and value is re-encoded,
so the untouched parameters are not preserved byte-for-byte.  Stated for
byte strings (every character below code point 256), matching urllib's
bytewise percent-codec. -/
theorem swap_usage_type_amended (u : UrlParts) (t : String)
    (hq : ∀ c ∈ u.query.data, c.toNat < 256)
    (ht : ∀ c ∈ t.data, c.toNat < 256) :
    parseQs (swap_usage_type u t).query
        = setParam (parseQs u.query) "usageType" t
    ∧ (swap_usage_type u t).scheme = u.scheme
    ∧ (swap_usage_type u t).netloc = u.netloc
    ∧ (swap_usage_type u t).path = u.path
    ∧ (swap_usage_type u t).pathParams = u.pathParams
    ∧ (swap_usage_type u t).fragment = u.fragment := by
  refine ⟨?_, rfl, rfl, rfl, rfl, rfl⟩
  show parseQs (swapQuery u.query t) = _
  unfold swapQuery
  obtain ⟨hv, hk, hb⟩ := parseQs_inv u.query hq
  obtain ⟨sv, sk, sb⟩ := setParam_inv
    (fun s => ∀ c ∈ s.data, c.toNat < 256)
    (parseQs u.query) "usageType" t hv hk hb (by decide) ht
  exact parseQs_urlencode _ sv sk sb

/-- Witness for C3 at a concrete captured URL: only the query changes,
and re-parsing it gives the original dict with usageType set to C. -/
theorem swap_usage_type_amended_witness :
    parseQs (swap_usage_type
        ⟨"https", "h", "/p", "", "a=1&usageType=Q&a=2", ""⟩ "C").query
      = setParam (parseQs "a=1&usageType=Q&a=2") "usageType" "C"
    ∧ (swap_usage_type
        ⟨"https", "h", "/p", "", "a=1&usageType=Q&a=2", ""⟩ "C").scheme
      = "https" := by
  have h := swap_usage_type_amended
    ⟨"https", "h", "/p", "", "a=1&usageType=Q&a=2", ""⟩ "C"
    (by decide) (by decide)
  exact ⟨h.1, h.2.1⟩

/-- C5 counterexample: a currency (cost chart) payload is normalized by
json_to_csv, whose total is round(sum, 3), not round(sum, 2): for a
dollar value of 0.0625 the emitted total is 0.062, while 2-decimal
rounding — what the claim requires of currency data — would give 0.06. -/
theorem currency_chart_rounding_counterexample :
    ((chartRows ⟨["01/02/2024"], [⟨"Off Peak $", [some (1/16)]⟩]⟩).map
        fun r => r.total) = [pyRound 3 (1/16 + 0)]
    ∧ pyRound 3 (1/16 + 0) = 31/500
    ∧ pyRound 2 (1/16 + 0) = 3/50
    ∧ (31 : ℚ)/500 ≠ 3/50 := by
  refine ⟨rfl, ?_, ?_, by norm_num⟩
  · norm_num [pyRound, roundHalfEven]
  · norm_num [pyRound, roundHalfEven]
